import Mathlib

/-
Verification of the constraint/witness substrate of the zkevm-circuits
repository: the halo2 expression AST with its degree function, the base
constraint builder, the RLC and positional byte codecs, the numeric codec
of eth-types, and the windowed witness cache.
-/

namespace ZkSpec

/-! ## Expressions

Shallow embedding of `halo2_proofs::plonk::Expression<F>`: a symbolic
polynomial over cell queries and challenges.  Queries (advice, fixed,
instance cells) are collapsed into one `Var` constructor since the code
under verification treats them uniformly; `Challenge` has degree 0 and
`Var` degree 1, exactly as in halo2's `Expression::degree`. -/

inductive Expression (F : Type) where
  | Constant : F → Expression F
  | Var : ℕ → Expression F
  | Challenge : ℕ → Expression F
  | Negated : Expression F → Expression F
  | Sum : Expression F → Expression F → Expression F
  | Product : Expression F → Expression F → Expression F
  | Scaled : Expression F → F → Expression F
deriving DecidableEq, Repr

namespace Expression

/-- Degree of an expression, mirroring `Expression::degree()` in halo2:
constants and challenges have degree 0, cell queries degree 1, sums take
the max, products add, negation and scaling preserve degree. -/
def degree {F : Type} : Expression F → ℕ
  | Constant _ => 0
  | Var _ => 1
  | Challenge _ => 0
  | Negated e => e.degree
  | Sum a b => max a.degree b.degree
  | Product a b => a.degree + b.degree
  | Scaled e _ => e.degree

/-- Evaluation of an expression under an assignment `va` of cell queries
and `vc` of challenges. -/
def eval {F : Type} [CommRing F] (va vc : ℕ → F) : Expression F → F
  | Constant c => c
  | Var i => va i
  | Challenge i => vc i
  | Negated e => -(e.eval va vc)
  | Sum a b => a.eval va vc + b.eval va vc
  | Product a b => a.eval va vc * b.eval va vc
  | Scaled e c => e.eval va vc * c

/-- Rust's `Sub` for `Expression` builds `Sum(a, Negated(b))`. -/
def sub {F : Type} (a b : Expression F) : Expression F :=
  Sum a (Negated b)

end Expression

/-! ## Constraint builder

Embedding of `BaseConstraintBuilder` from
`evm_circuit/util/constraint_builder.rs`.  The Rust code reports misuse
through `debug_assert!` panics (fatal construction-time faults); the
embedding models a fault as `none`. -/

structure BaseConstraintBuilder (F : Type) where
  constraints : List (String × Expression F)
  max_degree : ℕ
  condition : Option (Expression F)
deriving DecidableEq

namespace BaseConstraintBuilder

variable {F : Type}

/-- Mirror of `BaseConstraintBuilder::new`. -/
def new (max_degree : ℕ) : BaseConstraintBuilder F :=
  { constraints := [], max_degree := max_degree, condition := none }

/-- Mirror of `validate_degree`: with `max_degree > 0` the degree must be
at most `max_degree`, with `max_degree = 0` the check is disabled.  The
`name` argument only feeds the panic message in the source. -/
def validate_degree (cb : BaseConstraintBuilder F) (degree : ℕ) (_name : String) : Bool :=
  if 0 < cb.max_degree then decide (degree ≤ cb.max_degree) else true

/-- Mirror of `add_constraint`: wrap the constraint with the active
condition if any, validate the degree (a failed validation is a fatal
construction fault, modelled as `none`), then push. -/
def add_constraint (cb : BaseConstraintBuilder F) (name : String)
    (constraint : Expression F) : Option (BaseConstraintBuilder F) :=
  let constraint :=
    match cb.condition with
    | some c => Expression.Product c constraint
    | none => constraint
  if cb.validate_degree constraint.degree name then
    some { cb with constraints := cb.constraints ++ [(name, constraint)] }
  else
    none

/-- Mirror of `require_zero`. -/
def require_zero (cb : BaseConstraintBuilder F) (name : String)
    (constraint : Expression F) : Option (BaseConstraintBuilder F) :=
  cb.add_constraint name constraint

/-- Mirror of `require_equal`: pushes `lhs - rhs`. -/
def require_equal (cb : BaseConstraintBuilder F) (name : String)
    (lhs rhs : Expression F) : Option (BaseConstraintBuilder F) :=
  cb.add_constraint name (lhs.sub rhs)

/-- Mirror of `require_boolean`: pushes `value * (1 - value)`. -/
def require_boolean [One F] (cb : BaseConstraintBuilder F) (name : String)
    (value : Expression F) : Option (BaseConstraintBuilder F) :=
  cb.add_constraint name
    (Expression.Product value ((Expression.Constant 1).sub value))

/-- The membership product pushed by `require_in_set`: the left fold of
`acc * (value - item)` over the set, starting from the constant 1 (the
multiplicative identity, so an empty set yields the constant 1). -/
def inSetProduct [One F] (value : Expression F)
    (set : List (Expression F)) : Expression F :=
  set.foldl (fun acc item => Expression.Product acc (value.sub item))
    (Expression.Constant 1)

/-- Mirror of `require_in_set`: pushes the left fold
`∏ (value - item)` over the set, starting from the constant 1. -/
def require_in_set [One F] (cb : BaseConstraintBuilder F) (name : String)
    (value : Expression F) (set : List (Expression F)) :
    Option (BaseConstraintBuilder F) :=
  cb.add_constraint name (inSetProduct value set)

/-- Mirror of the `condition` combinator (renamed: `condition` is the
field): asserts no condition is active (nested conditions are a fatal
fault, modelled as `none`), runs the body with the condition set, then
clears it. -/
def condition_scope (cb : BaseConstraintBuilder F) (cond : Expression F)
    (body : BaseConstraintBuilder F → Option (BaseConstraintBuilder F)) :
    Option (BaseConstraintBuilder F) :=
  if cb.condition.isSome then
    none
  else
    (body { cb with condition := some cond }).map
      (fun cb' => { cb' with condition := none })

/-- Mirror of `gate`: every accumulated constraint multiplied by the
selector, with the degree re-validated after the multiplication (a failed
validation is a fatal fault, modelled as `none`). -/
def gate (cb : BaseConstraintBuilder F) (selector : Expression F) :
    Option (List (String × Expression F)) :=
  let mapped := cb.constraints.map
    (fun p => (p.1, Expression.Product selector p.2))
  if mapped.all (fun p => cb.validate_degree p.2.degree p.1) then
    some mapped
  else
    none

end BaseConstraintBuilder

/-! ## Words as limb pairs -/

/-- Modelled from the spec: the limb-pair `Word` type of `util/word.rs`
(that file is not among the provided sources).  A word is a pair of
(lo, hi) limbs, each one 128-bit quantity representable in the field;
`to_lo_hi` returns the pair and `zero` has both limbs the constant 0. -/
structure Word (T : Type) where
  lo : T
  hi : T
deriving DecidableEq, Repr

namespace Word

/-- Modelled from the spec: `Word::to_lo_hi` returns the (lo, hi) pair. -/
def to_lo_hi {T : Type} (w : Word T) : T × T := (w.lo, w.hi)

/-- Modelled from the spec: `Word::zero()` over expressions, both limbs
the constant 0. -/
def zero {F : Type} [Zero F] : Word (Expression F) :=
  ⟨Expression.Constant 0, Expression.Constant 0⟩

end Word

namespace BaseConstraintBuilder

variable {F : Type}

/-- Mirror of `require_equal_word`: split both words into limbs and push
one equality constraint per limb. -/
def require_equal_word (cb : BaseConstraintBuilder F) (name : String)
    (lhs rhs : Word (Expression F)) : Option (BaseConstraintBuilder F) :=
  let (lhs_lo, lhs_hi) := lhs.to_lo_hi
  let (rhs_lo, rhs_hi) := rhs.to_lo_hi
  (cb.add_constraint name (lhs_lo.sub rhs_lo)).bind
    (fun cb' => cb'.add_constraint name (lhs_hi.sub rhs_hi))

/-- Mirror of `require_zero_word`: equality with the zero word. -/
def require_zero_word [Zero F] (cb : BaseConstraintBuilder F) (name : String)
    (word : Word (Expression F)) : Option (BaseConstraintBuilder F) :=
  cb.require_equal_word name word Word.zero

end BaseConstraintBuilder

/-! ## Random linear combination codec (`evm_circuit/util.rs`, module `rlc`) -/

namespace rlc

/-- Mirror of `rlc::generic`: reverse the sequence, take the head of the
reversed sequence (so the last, most significant item) as the initial
accumulator — the source panics on an empty sequence, modelled as `none`
— then fold `acc * randomness + value` over the remaining items. -/
def generic {F : Type} [CommRing F] (values : List F) (randomness : F) :
    Option F :=
  match values.reverse with
  | [] => none
  | init :: rest =>
      some (rest.foldl (fun acc value => acc * randomness + value) init)

/-- Mirror of `rlc::value`: map the little-endian bytes into the field;
a nonempty sequence delegates to `generic`, an empty one returns 0. -/
def value {F : Type} [CommRing F] (values : List ℕ) (randomness : F) :
    Option F :=
  let vals := values.map (fun v => (Nat.cast v : F))
  if ¬vals.isEmpty then generic vals randomness else some 0

end rlc

/-! ## Positional byte decomposition (`evm_circuit/util.rs`, module `from_bytes`) -/

namespace from_bytes

/-- Mirror of `from_bytes::expr`: more than 32 bytes is a fatal
construction fault (modelled as `none`); otherwise fold
`value + byte * multiplier` with the multiplier advancing by a factor
of 256 per byte, building a symbolic expression (`byte * multiplier` is
halo2's `Scaled` node). -/
def expr {F : Type} [CommRing F] (bytes : List (Expression F)) :
    Option (Expression F) :=
  if bytes.length ≤ 32 then
    some ((bytes.foldl
      (fun vm byte => (Expression.Sum vm.1 (Expression.Scaled byte vm.2), vm.2 * 256))
      ((Expression.Constant 0 : Expression F), (1 : F))).1)
  else none

/-- Mirror of `from_bytes::value`: the concrete counterpart of `expr`,
folding `value + byte * multiplier` over field elements. -/
def value {F : Type} [CommRing F] (bytes : List ℕ) : Option F :=
  if bytes.length ≤ 32 then
    some ((bytes.foldl
      (fun vm byte => (vm.1 + (Nat.cast byte : F) * vm.2, vm.2 * 256))
      ((0 : F), (1 : F))).1)
  else none

end from_bytes

/-! ## Numeric codec (`eth-types/src/lib.rs`) -/

/-- Little-endian base-256 digits of `n`, `width` bytes wide: the
mathematical content of the fixed-width little-endian encodings
(`U256::to_little_endian`, `PrimeField::to_repr`). -/
def leBytes : ℕ → ℕ → List ℕ
  | 0, _ => []
  | width + 1, n => n % 256 :: leBytes width (n / 256)

/-- Integer value represented by a little-endian byte list (how
`from_repr` interprets its 32-byte input). -/
def leValue : List ℕ → ℕ
  | [] => 0
  | b :: bs => b + 256 * leValue bs

/-- Modulus of the BN254 scalar field `Fr`, the concrete `Field`
instance the repository instantiates (`halo2curves::bn256::Fr`). -/
def frModulus : ℕ :=
  21888242871839275222246405745257275088548364400416034343698204186575808495617

instance : NeZero frModulus := ⟨by unfold frModulus; norm_num⟩

/-- The BN254 scalar field. -/
abbrev Fr : Type := ZMod frModulus

/-- Semantics of the external `F::from_repr` on the 32-byte little-endian
representation, per the spec: construction from a canonical
representation fails unless the represented integer is below the
modulus (exactly one canonical representation per element). -/
def from_repr (bytes : List ℕ) : Option Fr :=
  if leValue bytes < frModulus then some ((leValue bytes : ℕ) : Fr) else none

/-- Mirror of `ToScalar for U256`: encode the 256-bit word in
little-endian (32 bytes) and hand the bytes to `from_repr`. -/
def to_scalar (w : ℕ) : Option Fr :=
  from_repr (leBytes 32 w)

/-- Mirror of `Field::get_lower_128`: take the first 16 bytes of the
canonical little-endian representation, reverse them, and fold
`acc * 256 + byte` (most-significant byte first). -/
def get_lower_128 (e : Fr) : ℕ :=
  ((leBytes 32 e.val).take 16).reverse.foldl
    (fun acc value => acc * 256 + value) 0

/-- Mirror of `Field::get_lower_32`: same fold over the first 4 bytes of
the canonical little-endian representation. -/
def get_lower_32 (e : Fr) : ℕ :=
  ((leBytes 32 e.val).take 4).reverse.foldl
    (fun acc value => acc * 256 + value) 0

/-! ## Windowed witness cache (`evm_circuit/util.rs`, `CachedRegion`) -/

/-- Modelled from the spec: the underlying trace grid (halo2's `Region`,
an external collaborator absent from the sources): an assignment
primitive accepting (column, row, value).  Cells hold the additive
identity until assigned. -/
def Grid (F : Type) : Type := ℕ → ℕ → F

/-- Modelled from the spec: the grid assignment primitive
(`Region::assign_advice` as seen by this core): store the value at the
given column and row offset. -/
def Grid.assign {F : Type} (g : Grid F) (column offset : ℕ) (v : F) :
    Grid F :=
  fun c r => if c = column ∧ r = offset then v else g c r

/-- Assigning one value into one column at every row offset of
`[offset_begin, offset_end)`. -/
def Grid.assignRange {F : Type} (g : Grid F) (column : ℕ)
    (offset_begin offset_end : ℕ) (v : F) : Grid F :=
  (List.range' offset_begin (offset_end - offset_begin)).foldl
    (fun g offset => g.assign column offset v) g

/-- Row-by-row re-assignment: for every row offset of
`[offset_begin, offset_end)` assign each (value, column) pair's value
into its column — the reference behaviour the replication shortcut is
compared against. -/
def Grid.reassign_rows {F : Type} (g : Grid F) (pairs : List (F × ℕ))
    (offset_begin offset_end : ℕ) : Grid F :=
  (List.range' offset_begin (offset_end - offset_begin)).foldl
    (fun g offset => pairs.foldl (fun g p => g.assign p.2 offset p.1) g) g

/-- Embedding of `CachedRegion`: the underlying grid, the dense local
advice cache (indexed cache-column-first, then cache-row), the advice
column indices, and the window origin. -/
structure CachedRegion (F : Type) where
  region : Grid F
  advice : List (List F)
  advice_columns : List ℕ
  width_start : ℕ
  height_start : ℕ

namespace CachedRegion

variable {F : Type}

/-- Mirror of `CachedRegion::get_advice`: read the cached value at the
window-relative column and at the row offset shifted by the rotation. -/
def get_advice [Zero F] (cr : CachedRegion F) (row_index column_index : ℕ)
    (rotation : ℤ) : F :=
  (cr.advice.getD (column_index - cr.width_start) []).getD
    (((row_index : ℤ) - (cr.height_start : ℤ) + rotation).toNat) 0

/-- The cached template-row values (cache row 0, i.e. the grid row at
`height_start`) zipped with the advice column indices — the pairs the
replication loop walks. -/
def template_pairs [Zero F] (cr : CachedRegion F) : List (F × ℕ) :=
  List.zip (cr.advice.map (fun values => values.getD 0 0)) cr.advice_columns

/-- Mirror of `CachedRegion::replicate_assignment_for_range`: walk the
columns zipped with their cached template value; skip a column whose
template value is zero; otherwise assign the template value into the
grid at every offset in `[offset_begin, offset_end)`.  The source's
`zip_eq` panics on a length mismatch and `values[0]` panics on an empty
cache column; both faults are modelled as `none`.  The local cache is
not touched. -/
def replicate_assignment_for_range [DecidableEq F] [Zero F]
    (cr : CachedRegion F) (offset_begin offset_end : ℕ) :
    Option (CachedRegion F) :=
  if cr.advice.length = cr.advice_columns.length ∧ ∀ vs ∈ cr.advice, vs ≠ [] then
    let region' := cr.template_pairs.foldl
      (fun g vc =>
        if vc.1 = 0 then g
        else g.assignRange vc.2 offset_begin offset_end vc.1)
      cr.region
    some { cr with region := region' }
  else none

end CachedRegion

/-! ## Concrete instances used to witness the theorems -/

/-- Example builder over ℤ with maximum degree 4. -/
def cbW1 : BaseConstraintBuilder ℤ := BaseConstraintBuilder.new 4

/-- Example word with variable limbs. -/
def wA : Word (Expression ℤ) := ⟨Expression.Var 0, Expression.Var 1⟩

/-- Example word with variable limbs. -/
def wB : Word (Expression ℤ) := ⟨Expression.Var 2, Expression.Var 3⟩

/-- Example builder over ℚ with the degree check disabled. -/
def cbQ0 : BaseConstraintBuilder ℚ := BaseConstraintBuilder.new 0

/-- Example value expression for set membership. -/
def vQ : Expression ℚ := Expression.Var 0

/-- Example two-element set of constant expressions. -/
def setQ : List (Expression ℚ) := [Expression.Constant 1, Expression.Constant 2]

/-- Example builder over ℤ holding one degree-3 constraint, with maximum
degree 4 (the spec's gate scenario). -/
def cbW5 : BaseConstraintBuilder ℤ :=
  { constraints := [("c", Expression.Product (Expression.Var 0)
      (Expression.Product (Expression.Var 1) (Expression.Var 2)))],
    max_degree := 4, condition := none }

/-- Example builder over ℤ with an active condition. -/
def cbW7 : BaseConstraintBuilder ℤ :=
  { constraints := [], max_degree := 0, condition := some (Expression.Var 9) }

/-- Example body for the condition combinator: push one constraint. -/
def bodyW7 (b : BaseConstraintBuilder ℤ) : Option (BaseConstraintBuilder ℤ) :=
  b.add_constraint "z" (Expression.Var 0)

/-- Example cached region over ℤ: two columns whose one-row caches hold
template values 1 and 0, over an everywhere-zero grid. -/
def crW8 : CachedRegion ℤ :=
  { region := fun _ _ => 0, advice := [[1], [0]], advice_columns := [0, 1],
    width_start := 0, height_start := 0 }

/-- The cached region produced by replicating the template row of
`crW8` over the padding rows [5, 10). -/
def crW8' : CachedRegion ℤ :=
  (crW8.replicate_assignment_for_range 5 10).get (by decide)

/-- Example cached region over ℤ for the cache-preservation witness. -/
def crW9 : CachedRegion ℤ :=
  { region := fun _ _ => 0, advice := [[2, 3], [4, 5]], advice_columns := [7, 8],
    width_start := 7, height_start := 1 }

/-- The cached region produced by replicating the template row of
`crW9` over the rows [5, 7). -/
def crW9' : CachedRegion ℤ :=
  (crW9.replicate_assignment_for_range 5 7).get (by decide)

/-! ## General lemmas about the builder -/

/-- Pushing with no active condition and a validated degree appends the
constraint unchanged. -/
theorem BaseConstraintBuilder.add_constraint_none {F : Type}
    (cb : BaseConstraintBuilder F) (name : String) (e : Expression F)
    (hc : cb.condition = none)
    (hd : cb.validate_degree e.degree name = true) :
    cb.add_constraint name e =
      some { cb with constraints := cb.constraints ++ [(name, e)] } := by
  unfold BaseConstraintBuilder.add_constraint
  rw [hc]
  simp only [hd, if_true]

/-! ## C1 -/

/-- C1: with no active condition and the two limb constraints passing
validation, `require_equal_word` pushes exactly the two limb-wise
constraints `lhs.lo - rhs.lo` and `lhs.hi - rhs.hi` (one per 128-bit
limb) and nothing else — never a single combined field-sized comparison
— and `require_zero_word` is definitionally `require_equal_word` against
the zero word. -/
theorem C1_require_equal_word_limbwise {F : Type} [CommRing F]
    (cb : BaseConstraintBuilder F) (name : String) (a b : Word (Expression F))
    (hc : cb.condition = none)
    (h1 : cb.validate_degree (a.lo.sub b.lo).degree name = true)
    (h2 : cb.validate_degree (a.hi.sub b.hi).degree name = true) :
    (cb.require_equal_word name a b = some { cb with constraints :=
      cb.constraints ++ [(name, a.lo.sub b.lo), (name, a.hi.sub b.hi)] }) ∧
    (∀ w : Word (Expression F),
      cb.require_zero_word name w = cb.require_equal_word name w Word.zero) := by
  refine ⟨?_, fun w => rfl⟩
  show (cb.add_constraint name (a.lo.sub b.lo)).bind
      (fun cb' => cb'.add_constraint name (a.hi.sub b.hi)) = _
  rw [BaseConstraintBuilder.add_constraint_none cb name _ hc h1, Option.some_bind,
    BaseConstraintBuilder.add_constraint_none
      { cb with constraints := cb.constraints ++ [(name, a.lo.sub b.lo)] }
      name _ hc h2]
  simp

/-- Witness for C1: a concrete builder over ℤ with two variable-limb
words; all hypotheses hold and the two limb constraints get pushed. -/
theorem C1_require_equal_word_limbwise_witness :
    (cbW1.condition = none ∧
      cbW1.validate_degree ((wA.lo).sub wB.lo).degree "w" = true ∧
      cbW1.validate_degree ((wA.hi).sub wB.hi).degree "w" = true) ∧
    ((cbW1.require_equal_word "w" wA wB = some { cbW1 with constraints :=
      cbW1.constraints ++ [("w", wA.lo.sub wB.lo), ("w", wA.hi.sub wB.hi)] }) ∧
    (∀ w : Word (Expression ℤ),
      cbW1.require_zero_word "w" w = cbW1.require_equal_word "w" w Word.zero)) :=
  ⟨⟨rfl, by decide, by decide⟩,
    C1_require_equal_word_limbwise cbW1 "w" wA wB rfl (by decide) (by decide)⟩

/-! ## C2 -/

/-- C2: the concrete RLC evaluator is the Horner fold
`acc ← acc·r + v` over the supplied little-endian sequence taken
most-significant (last) item first; a one-item sequence yields that item,
the empty sequence yields 0 with no fault, and on the sequence whose
big-endian order is `[0x01, 0x02, 0x03]` (little-endian input
`[3, 2, 1]`) with challenge 2 the result is 11. -/
theorem C2_rlc_value_horner {F : Type} [CommRing F] :
    (∀ (values : List ℕ) (randomness : F),
      rlc.value values randomness =
        some ((values.map (fun v => (Nat.cast v : F))).reverse.foldl
          (fun acc value => acc * randomness + value) 0)) ∧
    (∀ (v : ℕ) (r : F), rlc.value [v] r = some (v : F)) ∧
    (∀ r : F, rlc.value [] r = some 0) ∧
    rlc.value [3, 2, 1] (2 : ℤ) = some 11 := by
  have hgen : ∀ (L : List F) (r : F), L ≠ [] →
      rlc.generic L r =
        some (L.reverse.foldl (fun acc value => acc * r + value) 0) := by
    intro L r hL
    unfold rlc.generic
    cases hr : L.reverse with
    | nil =>
        exact absurd (by simpa using congrArg List.reverse hr) hL
    | cons init rest =>
        simp [List.foldl_cons]
  have main : ∀ (values : List ℕ) (randomness : F),
      rlc.value values randomness =
        some ((values.map (fun v => (Nat.cast v : F))).reverse.foldl
          (fun acc value => acc * randomness + value) 0) := by
    intro values randomness
    show (if ¬(values.map (fun v => (Nat.cast v : F))).isEmpty then
        rlc.generic (values.map (fun v => (Nat.cast v : F))) randomness
      else some 0) = _
    by_cases hv : values = []
    · subst hv; simp
    · have hne : values.map (fun v => (Nat.cast v : F)) ≠ [] := by
        cases values with
        | nil => exact absurd rfl hv
        | cons a as => simp
      rw [if_pos (by simpa [List.isEmpty_iff] using hne), hgen _ _ hne]
  refine ⟨main, fun v r => ?_, fun r => ?_, by decide⟩
  · rw [main]; simp
  · rw [main]; simp

/-! ## C4 -/

/-- Evaluating the membership fold from any accumulator multiplies the
accumulator's value by the product of the differences. -/
theorem inSetProduct_foldl_eval {F : Type} [CommRing F] (v : Expression F)
    (va vc : ℕ → F) :
    ∀ (S : List (Expression F)) (acc : Expression F),
      ((S.foldl (fun acc item => Expression.Product acc (v.sub item)) acc).eval va vc)
        = acc.eval va vc * (S.map (fun s => v.eval va vc - s.eval va vc)).prod := by
  intro S
  induction S with
  | nil => intro acc; simp
  | cons s S ih =>
      intro acc
      rw [List.foldl_cons, ih]
      simp only [Expression.eval, Expression.sub, List.map_cons, List.prod_cons]
      ring

/-- C4: `require_in_set` pushes the product `∏_{s∈S}(v−s)` folded from
the multiplicative identity; the pushed expression evaluates to zero
under every assignment placing v's value among S's values, to a nonzero
value under every assignment keeping it out (S nonempty, over a field),
and for the empty set it is the constant 1 — unconditionally
unsatisfiable rather than a vacuous pass. -/
theorem C4_require_in_set_product {F : Type} [Field F]
    (cb : BaseConstraintBuilder F) (name : String) (v : Expression F)
    (S : List (Expression F)) (hc : cb.condition = none)
    (hd : cb.validate_degree (BaseConstraintBuilder.inSetProduct v S).degree name = true) :
    (cb.require_in_set name v S = some { cb with constraints :=
      cb.constraints ++ [(name, BaseConstraintBuilder.inSetProduct v S)] }) ∧
    (∀ va vc : ℕ → F,
      (BaseConstraintBuilder.inSetProduct v S).eval va vc =
        (S.map (fun s => v.eval va vc - s.eval va vc)).prod) ∧
    (∀ va vc : ℕ → F, v.eval va vc ∈ S.map (fun s => s.eval va vc) →
      (BaseConstraintBuilder.inSetProduct v S).eval va vc = 0) ∧
    (∀ va vc : ℕ → F, S ≠ [] → v.eval va vc ∉ S.map (fun s => s.eval va vc) →
      (BaseConstraintBuilder.inSetProduct v S).eval va vc ≠ 0) ∧
    (BaseConstraintBuilder.inSetProduct v ([] : List (Expression F)) =
      Expression.Constant 1) := by
  have heval : ∀ va vc : ℕ → F,
      (BaseConstraintBuilder.inSetProduct v S).eval va vc =
        (S.map (fun s => v.eval va vc - s.eval va vc)).prod := by
    intro va vc
    unfold BaseConstraintBuilder.inSetProduct
    rw [inSetProduct_foldl_eval]
    simp [Expression.eval]
  refine ⟨BaseConstraintBuilder.add_constraint_none cb name _ hc hd, heval,
    ?_, ?_, rfl⟩
  · intro va vc hmem
    rcases List.mem_map.mp hmem with ⟨s, hs, heq⟩
    rw [heval]
    exact List.prod_eq_zero
      (List.mem_map.mpr ⟨s, hs, sub_eq_zero_of_eq heq.symm⟩)
  · intro va vc _hS hnotmem
    rw [heval]
    apply List.prod_ne_zero
    intro h0
    rcases List.mem_map.mp h0 with ⟨s, hs, hzero⟩
    exact hnotmem (List.mem_map.mpr ⟨s, hs, (sub_eq_zero.mp hzero).symm⟩)

/-- Witness for C4: value `Var 0` against the set {1, 2} over ℚ with the
degree check disabled. -/
theorem C4_require_in_set_product_witness :
    (cbQ0.condition = none ∧
      cbQ0.validate_degree (BaseConstraintBuilder.inSetProduct vQ setQ).degree "set" = true) ∧
    ((cbQ0.require_in_set "set" vQ setQ = some { cbQ0 with constraints :=
      cbQ0.constraints ++ [("set", BaseConstraintBuilder.inSetProduct vQ setQ)] }) ∧
    (∀ va vc : ℕ → ℚ,
      (BaseConstraintBuilder.inSetProduct vQ setQ).eval va vc =
        (setQ.map (fun s => vQ.eval va vc - s.eval va vc)).prod) ∧
    (∀ va vc : ℕ → ℚ, vQ.eval va vc ∈ setQ.map (fun s => s.eval va vc) →
      (BaseConstraintBuilder.inSetProduct vQ setQ).eval va vc = 0) ∧
    (∀ va vc : ℕ → ℚ, setQ ≠ [] → vQ.eval va vc ∉ setQ.map (fun s => s.eval va vc) →
      (BaseConstraintBuilder.inSetProduct vQ setQ).eval va vc ≠ 0) ∧
    (BaseConstraintBuilder.inSetProduct vQ ([] : List (Expression ℚ)) =
      Expression.Constant 1)) :=
  ⟨⟨rfl, by decide⟩, C4_require_in_set_product cbQ0 "set" vQ setQ rfl (by decide)⟩

/-! ## C5 -/

/-- C5: with max_degree = d > 0 a pushed constraint is accepted exactly
when its degree is at most d (a violation is a construction-time fault,
modelled as `none`), and max_degree = 0 disables the check entirely;
`gate` returns every accumulated constraint multiplied by the selector
and re-validates the degree after that multiplication, so it succeeds
exactly when `selector.degree + constraint.degree ≤ d` for every
accumulated constraint. -/
theorem C5_degree_enforcement {F : Type} [CommRing F]
    (cb : BaseConstraintBuilder F) (name : String) (e selector : Expression F)
    (hc : cb.condition = none) :
    ((0 < cb.max_degree →
      ((cb.add_constraint name e).isSome ↔ e.degree ≤ cb.max_degree)) ∧
     (cb.max_degree = 0 → (cb.add_constraint name e).isSome)) ∧
    ((0 < cb.max_degree →
      ((cb.gate selector).isSome ↔
        ∀ p ∈ cb.constraints,
          selector.degree + p.2.degree ≤ cb.max_degree)) ∧
     (cb.max_degree = 0 → (cb.gate selector).isSome) ∧
     (∀ gs, cb.gate selector = some gs →
       gs = cb.constraints.map
         (fun p => (p.1, Expression.Product selector p.2)))) := by
  have hadd : cb.add_constraint name e =
      if cb.validate_degree e.degree name then
        some { cb with constraints := cb.constraints ++ [(name, e)] }
      else none := by
    unfold BaseConstraintBuilder.add_constraint
    rw [hc]
  have hgate : cb.gate selector =
      if (cb.constraints.map
          (fun p => (p.1, Expression.Product selector p.2))).all
          (fun p => cb.validate_degree p.2.degree p.1) then
        some (cb.constraints.map
          (fun p => (p.1, Expression.Product selector p.2)))
      else none := rfl
  refine ⟨⟨?_, ?_⟩, ?_, ?_, ?_⟩
  · intro hd
    rw [hadd]
    unfold BaseConstraintBuilder.validate_degree
    rw [if_pos hd]
    by_cases hle : e.degree ≤ cb.max_degree
    · simp [hle]
    · simp [hle]
  · intro hd
    rw [hadd]
    unfold BaseConstraintBuilder.validate_degree
    rw [hd]
    simp
  · intro hd
    rw [hgate]
    by_cases hall : (cb.constraints.map
        (fun p => (p.1, Expression.Product selector p.2))).all
        (fun p => cb.validate_degree p.2.degree p.1) = true
    · rw [if_pos hall]
      simp only [Option.isSome_some, true_iff]
      intro p hp
      have hv := (List.all_eq_true.mp hall)
        (p.1, Expression.Product selector p.2)
        (List.mem_map.mpr ⟨p, hp, rfl⟩)
      unfold BaseConstraintBuilder.validate_degree at hv
      rw [if_pos hd] at hv
      simpa [Expression.degree] using of_decide_eq_true hv
    · rw [if_neg hall]
      simp only [Option.isSome_none]
      constructor
      · intro hfalse
        cases hfalse
      · intro hforall
        exfalso
        apply hall
        rw [List.all_eq_true]
        intro p hp
        rcases List.mem_map.mp hp with ⟨q, hq, rfl⟩
        unfold BaseConstraintBuilder.validate_degree
        rw [if_pos hd]
        exact decide_eq_true (by simpa [Expression.degree] using hforall q hq)
  · intro hd
    rw [hgate]
    have : ∀ p ∈ cb.constraints.map
        (fun p => (p.1, Expression.Product selector p.2)),
        cb.validate_degree p.2.degree p.1 = true := by
      intro p _
      unfold BaseConstraintBuilder.validate_degree
      rw [hd]
      simp
    rw [if_pos (List.all_eq_true.mpr this)]
    simp
  · intro gs hgs
    rw [hgate] at hgs
    split at hgs
    · exact (Option.some.inj hgs).symm
    · cases hgs

/-- Witness for C5: the spec's gate scenario over ℤ — a degree-3
constraint with maximum degree 4 passes `gate` with a degree-1 selector
and is rejected with a degree-2 selector. -/
theorem C5_degree_enforcement_witness :
    (cbW5.condition = none ∧ 0 < cbW5.max_degree) ∧
    ((cbW5.gate (Expression.Var 3)).isSome = true) ∧
    ((cbW5.gate (Expression.Product (Expression.Var 3)
      (Expression.Var 4))).isSome = false) ∧
    (∀ gs, cbW5.gate (Expression.Var 3) = some gs →
      gs = cbW5.constraints.map
        (fun p => (p.1, Expression.Product (Expression.Var 3) p.2))) :=
  ⟨⟨rfl, by decide⟩,
    ((C5_degree_enforcement cbW5 "c" (Expression.Constant 0)
      (Expression.Var 3) rfl).2.1 (by decide)).mpr (by decide),
    by decide,
    (C5_degree_enforcement cbW5 "c" (Expression.Constant 0)
      (Expression.Var 3) rfl).2.2.2⟩

/-! ## C7 -/

/-- C7: with an active condition c every constraint pushed through
`add_constraint` is stored as (name, c·e) with the degree of c·e
validated before pushing; with no active condition it is stored
unchanged; `condition_scope` activates the condition exactly for the
body, clears it afterwards (any successful result carries no condition),
and activating while one is active is a construction fault (`none`). -/
theorem C7_condition_scoping {F : Type} [CommRing F]
    (cb : BaseConstraintBuilder F) (name : String) (c e : Expression F)
    (body : BaseConstraintBuilder F → Option (BaseConstraintBuilder F)) :
    (cb.condition = some c →
      cb.add_constraint name e =
        (if cb.validate_degree (Expression.Product c e).degree name then
          some { cb with constraints :=
            cb.constraints ++ [(name, Expression.Product c e)] }
        else none)) ∧
    (cb.condition = none →
      cb.add_constraint name e =
        (if cb.validate_degree e.degree name then
          some { cb with constraints := cb.constraints ++ [(name, e)] }
        else none)) ∧
    (cb.condition.isSome → cb.condition_scope c body = none) ∧
    (cb.condition = none →
      cb.condition_scope c body =
        (body { cb with condition := some c }).map
          (fun cb' => { cb' with condition := none })) ∧
    (∀ cb', cb.condition_scope c body = some cb' → cb'.condition = none) := by
  refine ⟨?_, ?_, ?_, ?_, ?_⟩
  · intro hsome
    unfold BaseConstraintBuilder.add_constraint
    rw [hsome]
  · intro hnone
    unfold BaseConstraintBuilder.add_constraint
    rw [hnone]
  · intro hsome
    unfold BaseConstraintBuilder.condition_scope
    rw [if_pos hsome]
  · intro hnone
    unfold BaseConstraintBuilder.condition_scope
    rw [if_neg (by rw [hnone]; simp)]
  · intro cb' h
    unfold BaseConstraintBuilder.condition_scope at h
    split at h
    · cases h
    · rcases Option.map_eq_some'.mp h with ⟨x, _, rfl⟩
      rfl

/-- Witness for C7: a builder with an active condition wraps the pushed
constraint and refuses a nested scope; a builder without one pushes
unchanged and runs the scoped body with the condition set then
cleared. -/
theorem C7_condition_scoping_witness :
    (cbW7.condition = some (Expression.Var 9) ∧ cbW1.condition = none) ∧
    (cbW7.add_constraint "n" (Expression.Var 0) =
      some { cbW7 with constraints :=
        [("n", Expression.Product (Expression.Var 9) (Expression.Var 0))] }) ∧
    (cbW1.add_constraint "n" (Expression.Var 0) =
      some { cbW1 with constraints := [("n", Expression.Var 0)] }) ∧
    (cbW7.condition_scope (Expression.Var 8) bodyW7 = none) ∧
    (cbW1.condition_scope (Expression.Var 8) bodyW7 =
      some (BaseConstraintBuilder.mk
        [("z", Expression.Product (Expression.Var 8) (Expression.Var 0))]
        4 none)) :=
  ⟨⟨rfl, rfl⟩,
    ((C7_condition_scoping cbW7 "n" (Expression.Var 9) (Expression.Var 0)
      bodyW7).1 rfl).trans (by decide),
    ((C7_condition_scoping cbW1 "n" (Expression.Var 9) (Expression.Var 0)
      bodyW7).2.1 rfl).trans (by decide),
    (C7_condition_scoping cbW7 "n" (Expression.Var 8) (Expression.Var 0)
      bodyW7).2.2.1 rfl,
    ((C7_condition_scoping cbW1 "n" (Expression.Var 8) (Expression.Var 0)
      bodyW7).2.2.2.1 rfl).trans (by decide)⟩

/-! ## Little-endian encoding lemmas -/

/-- The `width`-byte little-endian encoding decodes to the value reduced
modulo `256 ^ width`. -/
theorem leValue_leBytes : ∀ (width n : ℕ),
    leValue (leBytes width n) = n % 256 ^ width := by
  intro width
  induction width with
  | zero => intro n; simp [leBytes, leValue, Nat.mod_one]
  | succ k ih =>
      intro n
      show n % 256 + 256 * leValue (leBytes k (n / 256)) = n % 256 ^ (k + 1)
      rw [ih, pow_succ, show (256 : ℕ) ^ k * 256 = 256 * 256 ^ k by ring,
        Nat.mod_mul]

/-- Taking the first `k` bytes of a wider little-endian encoding yields
the `k`-byte encoding. -/
theorem leBytes_take : ∀ (k j n : ℕ), (leBytes (k + j) n).take k = leBytes k n := by
  intro k
  induction k with
  | zero => intro j n; simp [leBytes]
  | succ k ih =>
      intro j n
      rw [show k + 1 + j = (k + j) + 1 by ring]
      show (n % 256 :: leBytes (k + j) (n / 256)).take (k + 1) =
        n % 256 :: leBytes k (n / 256)
      rw [List.take_succ_cons, ih]

/-- Folding a byte list most-significant-byte first by `acc * 256 + b`
computes the little-endian value of the list. -/
theorem foldl_rev_eq_leValue : ∀ l : List ℕ,
    l.reverse.foldl (fun acc value => acc * 256 + value) 0 = leValue l := by
  have key : ∀ (l : List ℕ) (acc : ℕ),
      l.reverse.foldl (fun acc value => acc * 256 + value) acc
        = acc * 256 ^ l.length + leValue l := by
    intro l
    induction l with
    | nil => intro acc; simp [leValue]
    | cons b bs ih =>
        intro acc
        rw [List.reverse_cons, List.foldl_append]
        simp only [List.foldl_cons, List.foldl_nil]
        rw [ih]
        show (acc * 256 ^ bs.length + leValue bs) * 256 + b =
          acc * 256 ^ (bs.length + 1) + (b + 256 * leValue bs)
        ring
  intro l
  rw [key]
  simp

/-! ## C6 -/

/-- The little-endian value of a byte list is the positional sum
Σ byteᵢ·256ⁱ. -/
theorem leValue_eq_sum : ∀ bs : List ℕ,
    leValue bs = ∑ i ∈ Finset.range bs.length, bs.getD i 0 * 256 ^ i := by
  intro bs
  induction bs with
  | nil => simp [leValue]
  | cons b tl ih =>
      show b + 256 * leValue tl = _
      rw [ih, List.length_cons, Finset.sum_range_succ']
      simp only [List.getD_cons_succ, List.getD_cons_zero, pow_zero, mul_one,
        pow_succ, Finset.mul_sum]
      have hcong : (∑ x ∈ Finset.range tl.length, tl.getD x 0 * (256 ^ x * 256))
          = ∑ x ∈ Finset.range tl.length, 256 * (tl.getD x 0 * 256 ^ x) :=
        Finset.sum_congr rfl (fun x _ => by ring)
      rw [hcong]
      exact Nat.add_comm b _

/-- The concrete `from_bytes` fold from any starting value and
multiplier adds the multiplier times the little-endian value. -/
theorem from_bytes_value_foldl {F : Type} [CommRing F] :
    ∀ (bytes : List ℕ) (v m : F),
      (bytes.foldl (fun vm byte => (vm.1 + (Nat.cast byte : F) * vm.2, vm.2 * 256))
        (v, m)).1 = v + m * ((leValue bytes : ℕ) : F) := by
  intro bytes
  induction bytes with
  | nil => intro v m; simp [leValue]
  | cons b tl ih =>
      intro v m
      rw [List.foldl_cons, ih]
      show v + (b : F) * m + m * 256 * ((leValue tl : ℕ) : F)
        = v + m * ((b + 256 * leValue tl : ℕ) : F)
      push_cast
      ring

/-- The symbolic `from_bytes` fold over constant byte expressions
evaluates to the same value the concrete fold computes. -/
theorem from_bytes_expr_foldl_eval {F : Type} [CommRing F] (va vc : ℕ → F) :
    ∀ (bytes : List ℕ) (v : Expression F) (m : F),
      (((bytes.map (fun b => Expression.Constant (Nat.cast b : F))).foldl
        (fun vm byte =>
          (Expression.Sum vm.1 (Expression.Scaled byte vm.2), vm.2 * 256))
        (v, m)).1).eval va vc
        = v.eval va vc + m * ((leValue bytes : ℕ) : F) := by
  intro bytes
  induction bytes with
  | nil => intro v m; simp [leValue]
  | cons b tl ih =>
      intro v m
      rw [List.map_cons, List.foldl_cons, ih]
      show v.eval va vc + (b : F) * m + m * 256 * ((leValue tl : ℕ) : F)
        = v.eval va vc + m * ((b + 256 * leValue tl : ℕ) : F)
      push_cast
      ring

/-- C6: for little-endian byte sequences of length at most 32 both the
concrete and the symbolic positional decomposition compute Σ byteᵢ·256ⁱ
(the symbolic expression built over the same concrete bytes evaluates to
the concrete result), and every sequence longer than 32 bytes is
rejected as a fatal construction fault. -/
theorem C6_from_bytes_positional {F : Type} [CommRing F]
    (bytes : List ℕ) (hlen : bytes.length ≤ 32) :
    (from_bytes.value (F := F) bytes =
      some (∑ i ∈ Finset.range bytes.length, (bytes.getD i 0 : F) * 256 ^ i)) ∧
    (∀ e : Expression F,
      from_bytes.expr (bytes.map (fun b => Expression.Constant (Nat.cast b : F))) =
        some e →
      ∀ va vc : ℕ → F, e.eval va vc =
        ∑ i ∈ Finset.range bytes.length, (bytes.getD i 0 : F) * 256 ^ i) ∧
    (∀ long : List ℕ, 32 < long.length →
      from_bytes.value (F := F) long = none) ∧
    (∀ es : List (Expression F), 32 < es.length →
      from_bytes.expr es = none) := by
  have hsum : ((leValue bytes : ℕ) : F)
      = ∑ i ∈ Finset.range bytes.length, (bytes.getD i 0 : F) * 256 ^ i := by
    rw [leValue_eq_sum]
    push_cast
    rfl
  refine ⟨?_, ?_, ?_, ?_⟩
  · unfold from_bytes.value
    rw [if_pos hlen, from_bytes_value_foldl, hsum]
    norm_num
  · intro e he va vc
    unfold from_bytes.expr at he
    rw [if_pos (by simpa using hlen)] at he
    rw [← Option.some.inj he, from_bytes_expr_foldl_eval, hsum]
    simp [Expression.eval]
  · intro long hlong
    unfold from_bytes.value
    rw [if_neg (by omega)]
  · intro es hes
    unfold from_bytes.expr
    rw [if_neg (by omega)]

/-- Witness for C6 at the concrete little-endian bytes [1, 2, 3] over ℤ:
the represented value is 1 + 2·256 + 3·256² = 197121. -/
theorem C6_from_bytes_positional_witness :
    (([1, 2, 3] : List ℕ).length ≤ 32) ∧
    (from_bytes.value (F := ℤ) [1, 2, 3] = some 197121) ∧
    (from_bytes.value (F := ℤ) [1, 2, 3] =
      some (∑ i ∈ Finset.range ([1, 2, 3] : List ℕ).length,
        (([1, 2, 3] : List ℕ).getD i 0 : ℤ) * 256 ^ i)) :=
  ⟨by decide, by decide,
    (C6_from_bytes_positional [1, 2, 3] (by decide)).1⟩

/-! ## C3 -/

/-- C3: `to_scalar` on a 256-bit word returns no value exactly when the
word's integer value reaches the field modulus — it never wraps or
truncates — and on success returns the field element whose canonical
value, and hence whose 32-byte little-endian representation, equals the
word's. -/
theorem C3_to_scalar_no_wraparound {w : ℕ} (hw : w < 2 ^ 256) :
    (to_scalar w = none ↔ frModulus ≤ w) ∧
    (∀ x : Fr, to_scalar w = some x →
      x.val = w ∧ leBytes 32 x.val = leBytes 32 w) := by
  have hval : leValue (leBytes 32 w) = w := by
    rw [leValue_leBytes]
    exact Nat.mod_eq_of_lt (by norm_num at hw ⊢; exact hw)
  have hts : to_scalar w =
      if w < frModulus then some ((w : ℕ) : Fr) else none := by
    unfold to_scalar from_repr
    rw [hval]
  by_cases hp : w < frModulus
  · rw [hts, if_pos hp]
    refine ⟨by simp [not_le.mpr hp], fun x hx => ?_⟩
    have hxw : x = ((w : ℕ) : Fr) := by
      exact (Option.some.injEq _ _ ▸ hx).symm ▸ rfl
    have : x.val = w := by
      rw [hxw]
      exact ZMod.val_cast_of_lt hp
    exact ⟨this, by rw [this]⟩
  · rw [hts, if_neg hp]
    exact ⟨by simp [not_lt.mp hp], fun x hx => by cases hx⟩

/-- Witness for C3 at the concrete word 5, which is below the modulus. -/
theorem C3_to_scalar_no_wraparound_witness :
    (5 < 2 ^ 256) ∧
    ((to_scalar 5 = none ↔ frModulus ≤ 5) ∧
     (∀ x : Fr, to_scalar 5 = some x →
       x.val = 5 ∧ leBytes 32 x.val = leBytes 32 5)) :=
  ⟨by norm_num, C3_to_scalar_no_wraparound (by norm_num)⟩

/-! ## C10 -/

/-- C10: on every field element, `get_lower_32` equals `get_lower_128`
reduced modulo 2^32: both fold low-order bytes of the same canonical
little-endian representation most-significant-byte first, computing the
canonical value modulo 2^32 and 2^128 respectively. -/
theorem C10_get_lower_32_eq_get_lower_128_mod :
    ∀ e : Fr,
      get_lower_32 e = get_lower_128 e % 2 ^ 32 ∧
      get_lower_128 e = e.val % 2 ^ 128 ∧
      get_lower_32 e = e.val % 2 ^ 32 := by
  intro e
  have h128 : get_lower_128 e = e.val % 2 ^ 128 := by
    unfold get_lower_128
    rw [show (32 : ℕ) = 16 + 16 by rfl, leBytes_take, foldl_rev_eq_leValue,
      leValue_leBytes]
    norm_num
  have h32 : get_lower_32 e = e.val % 2 ^ 32 := by
    unfold get_lower_32
    rw [show (32 : ℕ) = 4 + 28 by rfl, leBytes_take, foldl_rev_eq_leValue,
      leValue_leBytes]
    norm_num
  refine ⟨?_, h128, h32⟩
  rw [h128, h32, Nat.mod_mod_of_dvd]
  exact ⟨2 ^ 96, by norm_num⟩

/-! ## Pointwise grid lemmas for C8 and C9 -/

/-- Pointwise description of a single grid assignment. -/
theorem Grid.assign_apply {F : Type} (g : Grid F) (column offset : ℕ)
    (v : F) (c r : ℕ) :
    g.assign column offset v c r =
      if c = column ∧ r = offset then v else g c r := rfl

/-- Pointwise description of assigning one value over a row range. -/
theorem Grid.range_foldl_apply {F : Type} :
    ∀ (k b : ℕ) (g : Grid F) (column : ℕ) (v : F) (c r : ℕ),
      ((List.range' b k).foldl (fun g offset => g.assign column offset v) g) c r
        = if c = column ∧ b ≤ r ∧ r < b + k then v else g c r := by
  intro k
  induction k with
  | zero =>
      intro b g column v c r
      show g c r = if c = column ∧ b ≤ r ∧ r < b + 0 then v else g c r
      rw [if_neg (by omega)]
  | succ k ih =>
      intro b g column v c r
      show ((List.range' (b + 1) k).foldl
        (fun g offset => g.assign column offset v) (g.assign column b v)) c r = _
      rw [ih, Grid.assign_apply]
      split_ifs <;> first | rfl | omega

/-- Within pairwise-distinct columns, searching for a member pair's
column finds that pair. -/
theorem find?_snd_of_mem {F : Type} :
    ∀ (pairs : List (F × ℕ)) (p : F × ℕ),
      (pairs.map Prod.snd).Nodup → p ∈ pairs →
      pairs.find? (fun q => q.2 == p.2) = some p := by
  intro pairs
  induction pairs with
  | nil => intro p _ hp; cases hp
  | cons a as ih =>
      intro p hnodup hp
      rw [List.map_cons, List.nodup_cons] at hnodup
      rcases List.mem_cons.mp hp with rfl | hp'
      · exact List.find?_cons_of_pos _ (by simp)
      · rw [List.find?_cons_of_neg _ (by
          simp only [beq_iff_eq]
          intro he
          exact hnodup.1 (he ▸ List.mem_map_of_mem Prod.snd hp'))]
        exact ih p hnodup.2 hp'

/-- Pointwise description of the replication loop: over pairwise-distinct
columns the resulting grid holds the template value of a nonzero-template
column on every target row, and every other cell is untouched. -/
theorem Grid.replicate_foldl_apply {F : Type} [DecidableEq F] [Zero F] :
    ∀ (pairs : List (F × ℕ)) (g : Grid F) (b e c r : ℕ),
      (pairs.map Prod.snd).Nodup →
      (pairs.foldl (fun g vc => if vc.1 = 0 then g
          else g.assignRange vc.2 b e vc.1) g) c r
        = (match pairs.find? (fun p => p.2 == c) with
          | some p => if p.1 ≠ 0 ∧ b ≤ r ∧ r < e then p.1 else g c r
          | none => g c r) := by
  intro pairs
  induction pairs with
  | nil => intro g b e c r _; rfl
  | cons p ps ih =>
      intro g b e c r hnodup
      rw [List.map_cons, List.nodup_cons] at hnodup
      show (ps.foldl (fun g vc => if vc.1 = 0 then g
          else g.assignRange vc.2 b e vc.1)
        (if p.1 = 0 then g else g.assignRange p.2 b e p.1)) c r = _
      rw [ih _ _ _ _ _ hnodup.2]
      have hinner : (if p.1 = 0 then g else g.assignRange p.2 b e p.1) c r
          = if c = p.2 ∧ p.1 ≠ 0 ∧ b ≤ r ∧ r < e then p.1 else g c r := by
        by_cases h0 : p.1 = 0
        · rw [if_pos h0, if_neg (by tauto)]
        · rw [if_neg h0]
          have hiff : (c = p.2 ∧ p.1 ≠ 0 ∧ b ≤ r ∧ r < e) ↔
              (c = p.2 ∧ b ≤ r ∧ r < b + (e - b)) := by
            constructor
            · rintro ⟨h1, _, h2, h3⟩; exact ⟨h1, h2, by omega⟩
            · rintro ⟨h1, h2, h3⟩; exact ⟨h1, h0, h2, by omega⟩
          rw [if_congr hiff rfl rfl]
          show ((List.range' b (e - b)).foldl
            (fun g offset => g.assign p.2 offset p.1) g) c r = _
          rw [Grid.range_foldl_apply]
      rw [hinner]
      by_cases hc : p.2 = c
      · rw [List.find?_cons_of_pos _ (by simpa using hc)]
        have hnone : ps.find? (fun q => q.2 == c) = none := by
          rw [List.find?_eq_none]
          intro q hq
          simp only [beq_iff_eq]
          intro hqc
          exact hnodup.1 (by rw [hc, ← hqc]; exact List.mem_map_of_mem Prod.snd hq)
        simp only [hnone]
        by_cases hcond : p.1 ≠ 0 ∧ b ≤ r ∧ r < e
        · rw [if_pos ⟨hc.symm, hcond⟩, if_pos hcond]
        · rw [if_neg (fun h => hcond h.2), if_neg hcond]
      · rw [List.find?_cons_of_neg _ (by simpa using hc)]
        have hg : (if c = p.2 ∧ p.1 ≠ 0 ∧ b ≤ r ∧ r < e then p.1 else g c r)
            = g c r := if_neg (fun h => hc h.1.symm)
        cases hfind : ps.find? (fun q => q.2 == c) with
        | none => simp only [hfind]; exact hg
        | some q =>
            simp only [hfind]
            by_cases hq : q.1 ≠ 0 ∧ b ≤ r ∧ r < e
            · rw [if_pos hq, if_pos hq]
            · rw [if_neg hq, if_neg hq]; exact hg

/-- Pointwise description of assigning every pair's value into its
column at one fixed row offset, over pairwise-distinct columns. -/
theorem Grid.pairs_foldl_apply {F : Type} :
    ∀ (pairs : List (F × ℕ)) (g : Grid F) (r0 c r : ℕ),
      (pairs.map Prod.snd).Nodup →
      (pairs.foldl (fun g p => g.assign p.2 r0 p.1) g) c r
        = (match pairs.find? (fun p => p.2 == c) with
          | some p => if r = r0 then p.1 else g c r
          | none => g c r) := by
  intro pairs
  induction pairs with
  | nil => intro g r0 c r _; rfl
  | cons p ps ih =>
      intro g r0 c r hnodup
      rw [List.map_cons, List.nodup_cons] at hnodup
      show (ps.foldl (fun g q => g.assign q.2 r0 q.1)
        (g.assign p.2 r0 p.1)) c r = _
      rw [ih _ _ _ _ hnodup.2]
      by_cases hc : p.2 = c
      · rw [List.find?_cons_of_pos _ (by simpa using hc)]
        have hnone : ps.find? (fun q => q.2 == c) = none := by
          rw [List.find?_eq_none]
          intro q hq
          simp only [beq_iff_eq]
          intro hqc
          exact hnodup.1 (by rw [hc, ← hqc]; exact List.mem_map_of_mem Prod.snd hq)
        simp only [hnone, Grid.assign_apply]
        by_cases hr : r = r0
        · rw [if_pos ⟨hc.symm, hr⟩, if_pos hr]
        · rw [if_neg (fun h => hr h.2), if_neg hr]
      · rw [List.find?_cons_of_neg _ (by simpa using hc)]
        have hg : g.assign p.2 r0 p.1 c r = g c r := by
          rw [Grid.assign_apply]
          exact if_neg (fun h => hc h.1.symm)
        cases hfind : ps.find? (fun q => q.2 == c) with
        | none => simp only [hfind]; exact hg
        | some q =>
            simp only [hfind]
            by_cases hr : r = r0
            · rw [if_pos hr, if_pos hr]
            · rw [if_neg hr, if_neg hr]; exact hg

/-- Pointwise description of row-by-row re-assignment over a list of
rows, over pairwise-distinct columns. -/
theorem Grid.rows_foldl_apply {F : Type} :
    ∀ (rows : List ℕ) (pairs : List (F × ℕ)) (g : Grid F) (c r : ℕ),
      (pairs.map Prod.snd).Nodup →
      (rows.foldl (fun g r0 =>
          pairs.foldl (fun g p => g.assign p.2 r0 p.1) g) g) c r
        = (match pairs.find? (fun p => p.2 == c) with
          | some p => if r ∈ rows then p.1 else g c r
          | none => g c r) := by
  intro rows
  induction rows with
  | nil =>
      intro pairs g c r _
      cases hfind : pairs.find? (fun p => p.2 == c) with
      | none => rfl
      | some q => simp [hfind]
  | cons r0 rest ih =>
      intro pairs g c r hnodup
      show (rest.foldl (fun g r1 =>
          pairs.foldl (fun g p => g.assign p.2 r1 p.1) g)
        (pairs.foldl (fun g p => g.assign p.2 r0 p.1) g)) c r = _
      rw [ih _ _ _ _ hnodup, Grid.pairs_foldl_apply _ _ _ _ _ hnodup]
      cases hfind : pairs.find? (fun p => p.2 == c) with
      | none => simp only [hfind]
      | some q =>
          simp only [hfind, List.mem_cons]
          by_cases hrest : r ∈ rest
          · rw [if_pos hrest, if_pos (Or.inr hrest)]
          · rw [if_neg hrest]
            by_cases hr0 : r = r0
            · rw [if_pos hr0, if_pos (Or.inl hr0)]
            · rw [if_neg hr0, if_neg (by tauto)]

/-! ## C8 -/

/-- C8: a successful replication copies, for every template pair with a
nonzero value, that value into every grid row of the range in its
column; it skips (leaves untouched) every cell of a column whose
template value is zero and every cell outside the row range; and when
the padding cells of the zero-template columns already hold the grid's
zero default, the resulting grid state is identical to individually
re-assigning each row of the range to the template row's values. -/
theorem C8_replicate_row_for_range {F : Type} [DecidableEq F] [Zero F]
    (cr : CachedRegion F) (offset_begin offset_end : ℕ)
    (hnodup : cr.advice_columns.Nodup) (cr' : CachedRegion F)
    (hrep : cr.replicate_assignment_for_range offset_begin offset_end =
      some cr') :
    (∀ p ∈ cr.template_pairs, p.1 ≠ 0 →
      ∀ r, offset_begin ≤ r → r < offset_end → cr'.region p.2 r = p.1) ∧
    (∀ c r, (∀ p ∈ cr.template_pairs, p.2 = c → p.1 = 0) →
      cr'.region c r = cr.region c r) ∧
    (∀ c r, r < offset_begin ∨ offset_end ≤ r →
      cr'.region c r = cr.region c r) ∧
    ((∀ p ∈ cr.template_pairs, p.1 = 0 →
        ∀ r, offset_begin ≤ r → r < offset_end → cr.region p.2 r = 0) →
      cr'.region = Grid.reassign_rows cr.region cr.template_pairs
        offset_begin offset_end) := by
  have hlen : cr.advice.length = cr.advice_columns.length := by
    unfold CachedRegion.replicate_assignment_for_range at hrep
    split at hrep
    case isTrue h => exact h.1
    case isFalse h => cases hrep
  have hshape : ({ cr with region := (cr.template_pairs.foldl
      (fun g vc => if vc.1 = 0 then g
        else g.assignRange vc.2 offset_begin offset_end vc.1) cr.region) } :
      CachedRegion F) = cr' := by
    unfold CachedRegion.replicate_assignment_for_range at hrep
    split at hrep
    case isTrue h => exact Option.some.inj hrep
    case isFalse h => cases hrep
  have hsnd : cr.template_pairs.map Prod.snd = cr.advice_columns := by
    unfold CachedRegion.template_pairs
    exact List.map_snd_zip _ _ (by rw [List.length_map]; omega)
  have hnd : (cr.template_pairs.map Prod.snd).Nodup := by
    rw [hsnd]; exact hnodup
  have hregion : ∀ c r, cr'.region c r
      = (match cr.template_pairs.find? (fun p => p.2 == c) with
        | some p => if p.1 ≠ 0 ∧ offset_begin ≤ r ∧ r < offset_end then p.1
                    else cr.region c r
        | none => cr.region c r) := by
    intro c r
    rw [← hshape]
    exact Grid.replicate_foldl_apply _ _ _ _ c r hnd
  have hreassign : ∀ c r,
      Grid.reassign_rows cr.region cr.template_pairs offset_begin offset_end c r
        = (match cr.template_pairs.find? (fun p => p.2 == c) with
          | some p => if offset_begin ≤ r ∧ r < offset_end then p.1
                      else cr.region c r
          | none => cr.region c r) := by
    intro c r
    show ((List.range' offset_begin (offset_end - offset_begin)).foldl
      (fun g r0 => cr.template_pairs.foldl
        (fun g p => g.assign p.2 r0 p.1) g) cr.region) c r = _
    rw [Grid.rows_foldl_apply _ _ _ _ _ hnd]
    cases hfind : cr.template_pairs.find? (fun p => p.2 == c) with
    | none => rfl
    | some q =>
        simp only [hfind]
        by_cases hin : offset_begin ≤ r ∧ r < offset_end
        · rw [if_pos (List.mem_range'_1.mpr (by omega)), if_pos hin]
        · rw [if_neg (fun h => hin (by
            have := List.mem_range'_1.mp h
            omega)), if_neg hin]
  refine ⟨?_, ?_, ?_, ?_⟩
  · intro p hp hne r h1 h2
    rw [hregion, find?_snd_of_mem _ _ hnd hp]
    exact if_pos ⟨hne, h1, h2⟩
  · intro c r hall
    rw [hregion]
    cases hfind : cr.template_pairs.find? (fun p => p.2 == c) with
    | none => rfl
    | some q =>
        simp only [hfind]
        have hq := List.mem_of_find?_eq_some hfind
        have hqc : q.2 = c := by simpa using List.find?_some hfind
        exact if_neg (fun h => h.1 (hall q hq hqc))
  · intro c r hout
    rw [hregion]
    cases hfind : cr.template_pairs.find? (fun p => p.2 == c) with
    | none => rfl
    | some q =>
        simp only [hfind]
        exact if_neg (fun h => by rcases h with ⟨_, h2, h3⟩; omega)
  · intro hzero
    funext c r
    rw [hregion, hreassign]
    cases hfind : cr.template_pairs.find? (fun p => p.2 == c) with
    | none => rfl
    | some q =>
        simp only [hfind]
        have hq := List.mem_of_find?_eq_some hfind
        have hqc : q.2 = c := by simpa using List.find?_some hfind
        by_cases hin : offset_begin ≤ r ∧ r < offset_end
        · by_cases h0 : q.1 = 0
          · rw [if_neg (fun h => h.1 h0), if_pos hin, ← hqc,
              hzero q hq h0 r hin.1 hin.2, h0]
          · rw [if_pos ⟨h0, hin⟩, if_pos hin]
        · rw [if_neg (fun h => hin h.2), if_neg hin]

/-- Witness for C8: a two-column region over ℤ with template values 1
and 0 on an everywhere-zero grid, replicated over the padding rows
[5, 10). -/
theorem C8_replicate_row_for_range_witness :
    (crW8.advice_columns.Nodup ∧
      crW8.replicate_assignment_for_range 5 10 = some crW8') ∧
    ((∀ p ∈ crW8.template_pairs, p.1 ≠ 0 →
      ∀ r, 5 ≤ r → r < 10 → crW8'.region p.2 r = p.1) ∧
    (∀ c r, (∀ p ∈ crW8.template_pairs, p.2 = c → p.1 = 0) →
      crW8'.region c r = crW8.region c r) ∧
    (∀ c r, r < 5 ∨ 10 ≤ r → crW8'.region c r = crW8.region c r) ∧
    ((∀ p ∈ crW8.template_pairs, p.1 = 0 →
        ∀ r, 5 ≤ r → r < 10 → crW8.region p.2 r = 0) →
      crW8'.region = Grid.reassign_rows crW8.region crW8.template_pairs 5 10)) :=
  ⟨⟨by decide, (Option.some_get _).symm⟩,
    C8_replicate_row_for_range crW8 5 10 (by decide) crW8'
      (Option.some_get _).symm⟩

/-! ## C9 -/

/-- C9: replication writes only into the underlying grid and never into
the window's local advice cache: a successful call leaves the cache
unchanged, so every subsequent `get_advice` read returns exactly what it
returned before the call. -/
theorem C9_replicate_preserves_cache {F : Type} [DecidableEq F] [Zero F]
    (cr : CachedRegion F) (offset_begin offset_end : ℕ)
    (cr' : CachedRegion F)
    (hrep : cr.replicate_assignment_for_range offset_begin offset_end =
      some cr') :
    cr'.advice = cr.advice ∧
    (∀ (row_index column_index : ℕ) (rotation : ℤ),
      cr'.get_advice row_index column_index rotation =
        cr.get_advice row_index column_index rotation) := by
  have h : ∃ region', cr' = { cr with region := region' } := by
    unfold CachedRegion.replicate_assignment_for_range at hrep
    split at hrep
    · exact ⟨_, (Option.some.inj hrep).symm⟩
    · cases hrep
  obtain ⟨region', rfl⟩ := h
  exact ⟨rfl, fun row_index column_index rotation => rfl⟩

/-- Witness for C9: the two-column region with caches [2, 3] and [4, 5],
replicated over rows [5, 7); every cache read is unchanged. -/
theorem C9_replicate_preserves_cache_witness :
    (crW9.replicate_assignment_for_range 5 7 = some crW9') ∧
    (crW9'.advice = crW9.advice ∧
    (∀ (row_index column_index : ℕ) (rotation : ℤ),
      crW9'.get_advice row_index column_index rotation =
        crW9.get_advice row_index column_index rotation)) :=
  ⟨(Option.some_get _).symm,
    C9_replicate_preserves_cache crW9 5 7 crW9' (Option.some_get _).symm⟩

end ZkSpec
